import Mathlib

/-!
Shallow embedding of the `echo-repl` readline library (`rl_read_line`,
`read_key`, `add_to_history`, the raw-mode controller and the `die`
handler) together with proofs about the edit loop.

History entries and the caller's buffer are modelled as lists of bytes
(`List Nat`).  A stored entry records the bytes of its allocation up to
and including the first null terminator (bytes beyond the terminator are
junk the program never reads except through explicit `memcpy`, which the
model performs with `List.take`/`List.drop`).  The C string held by an
allocation is the prefix before the first `0` byte (`cString`).
-/

namespace EchoRepl

/-! ### Key codes (`enum TermKey`) and the `CTRL_KEY` macro -/

def KEY_ENTER : Nat := 13
def KEY_ESC : Nat := 27
def KEY_BACKSPACE : Nat := 127
def KEY_ARROW_UP : Nat := 1000
def KEY_ARROW_DOWN : Nat := 1001
def KEY_ARROW_RIGHT : Nat := 1002
def KEY_ARROW_LEFT : Nat := 1003
def KEY_DELETE : Nat := 1004
def KEY_HOME : Nat := 1005
def KEY_END : Nat := 1006
def KEY_PAGE_UP : Nat := 1007
def KEY_PAGE_DOWN : Nat := 1008

/-- `#define CTRL_KEY(k) (k & 0x1f)`. -/
def CTRL_KEY (k : Nat) : Nat := k &&& 0x1f

/-- `isprint` from `<ctype.h>` in the C locale: the printable bytes are
`0x20 .. 0x7e`. -/
def isprint (c : Nat) : Bool := 32 ≤ c && c ≤ 126

/-! ### C strings -/

/-- The content of a C string: the bytes before the first null. -/
def cString : List Nat → List Nat
  | [] => []
  | b :: rest => if b = 0 then [] else b :: cString rest

/-- `strlen` of a stored allocation. -/
def strlen (e : List Nat) : Nat := (cString e).length

/-- `memcpy(dst, src, n)` on byte lists: the first `n` bytes of `dst` are
replaced by the first `n` bytes of `src`. -/
def memcpyOnto (dst src : List Nat) (n : Nat) : List Nat :=
  src.take n ++ dst.drop n

/-! ### Edit-loop state

The local state of the loop inside `rl_read_line`: the history vector
(each element one owned allocation), the global `history_index`, and the
locals `cursor_pos` and `num_chars`.  The "current buffer" pointer of the
C code is the entry at `history_index`. -/

structure EditState where
  history : List (List Nat)
  history_index : Nat
  cursor_pos : Nat
  num_chars : Nat
deriving DecidableEq, Repr

/-- What one iteration of the key-dispatch does: continue looping, jump to
`end_of_loop` (Enter / Ctrl+D on a non-empty line), return `RL_SIGINT`, or
return `RL_EOF`. -/
inductive StepResult where
  | next (s : EditState)
  | submit (s : EditState)
  | sigint (s : EditState)
  | eofExit (s : EditState)
deriving DecidableEq, Repr

def StepResult.state : StepResult → EditState
  | .next s => s
  | .submit s => s
  | .sigint s => s
  | .eofExit s => s

/-- Printable byte (lines 122-159): the memmove shifts the tail of the
line, including its null terminator, right by one, the byte is written at
the cursor, and cursor and length advance. -/
def insertKey (s : EditState) (key : Nat) : EditState :=
  { s with
    history := s.history.set s.history_index
      (((cString (s.history.getD s.history_index [])).take s.cursor_pos
        ++ key :: (cString (s.history.getD s.history_index [])).drop s.cursor_pos)
        ++ [0]),
    cursor_pos := s.cursor_pos + 1,
    num_chars := s.num_chars + 1 }

/-- Backspace (lines 191-215): no-op at column 0, otherwise the bytes
after the cursor (and the terminator) shift left by one. -/
def backspaceKey (s : EditState) : EditState :=
  if s.cursor_pos = 0 then s
  else
    { s with
      history := s.history.set s.history_index
        (((cString (s.history.getD s.history_index [])).take (s.cursor_pos - 1)
          ++ (cString (s.history.getD s.history_index [])).drop s.cursor_pos)
          ++ [0]),
      cursor_pos := s.cursor_pos - 1,
      num_chars := s.num_chars - 1 }

/-- Arrow Up / Down (lines 218-242): no-op at the oldest / tail boundary,
otherwise move the index by one, switch the live buffer, and set cursor
and length to the recalled entry's `strlen`. -/
def arrowKey (s : EditState) (key : Nat) : EditState :=
  if (key = KEY_ARROW_UP ∧ s.history_index = 0) ∨
      (key = KEY_ARROW_DOWN ∧ s.history_index = s.history.length - 1) then s
  else
    { s with
      history_index :=
        if key = KEY_ARROW_UP then s.history_index - 1 else s.history_index + 1,
      cursor_pos := strlen (s.history.getD
        (if key = KEY_ARROW_UP then s.history_index - 1 else s.history_index + 1) []),
      num_chars := strlen (s.history.getD
        (if key = KEY_ARROW_UP then s.history_index - 1 else s.history_index + 1) []) }

/-- Ctrl+B / Arrow Left (lines 245-255). -/
def leftKey (s : EditState) : EditState :=
  if s.cursor_pos = 0 then s else { s with cursor_pos := s.cursor_pos - 1 }

/-- Ctrl+F / Arrow Right (lines 258-268). -/
def rightKey (s : EditState) : EditState :=
  if s.cursor_pos = s.num_chars then s
  else { s with cursor_pos := s.cursor_pos + 1 }

/-- One iteration of the key dispatch of `rl_read_line` (lines 119-273 of
the source): `isprint` insertion, then the `switch` on the decoded key. -/
def stepKey (s : EditState) (key : Nat) : StepResult :=
  if isprint key then .next (insertKey s key)
  else if key = KEY_ENTER then .submit s
  else if key = CTRL_KEY 99 then .sigint s               -- Ctrl+C ('c' = 99)
  else if key = CTRL_KEY 100 then                        -- Ctrl+D ('d' = 100)
    if s.num_chars = 0 then .eofExit s else .submit s
  else if key = KEY_BACKSPACE then .next (backspaceKey s)
  else if key = KEY_ARROW_UP ∨ key = KEY_ARROW_DOWN then .next (arrowKey s key)
  else if key = CTRL_KEY 98 ∨ key = KEY_ARROW_LEFT then .next (leftKey s)
  else if key = CTRL_KEY 102 ∨ key = KEY_ARROW_RIGHT then .next (rightKey s)
  else .next s

/-- How the edit loop finished.  `submitted via_key s`: control reached
`end_of_loop`, either through Enter / Ctrl+D (`via_key = true`) or because
the `while (num_chars < buf_size - 1)` condition failed (`via_key =
false`).  The flag records which exit was taken; the code treats both
identically afterwards. -/
inductive LoopExit where
  | submitted (via_key : Bool) (s : EditState)
  | interrupted (s : EditState)
  | endOfInput (s : EditState)
deriving DecidableEq, Repr

def LoopExit.state : LoopExit → EditState
  | .submitted _ s => s
  | .interrupted s => s
  | .endOfInput s => s

/-- The `while (num_chars < buf_size - 1)` loop, driven by the (already
decoded) key stream.  `none` models a session in which the key stream is
exhausted while the loop would still block on `read_key`. -/
def editLoop (buf_size : Nat) : EditState → List Nat → Option LoopExit
  | s, [] =>
    if s.num_chars < buf_size - 1 then none else some (.submitted false s)
  | s, k :: ks =>
    if s.num_chars < buf_size - 1 then
      match stepKey s k with
      | .next s1 => editLoop buf_size s1 ks
      | .submit s1 => some (.submitted true s1)
      | .sigint s1 => some (.interrupted s1)
      | .eofExit s1 => some (.endOfInput s1)
    else some (.submitted false s)

/-! ### Terminal mode -/

/-- `raw`: whether the terminal device is actually in raw mode.
`raw_mode_enabled`: the global flag of the same name. -/
structure TermMode where
  raw : Bool
  raw_mode_enabled : Bool
deriving DecidableEq, Repr

def enable_raw_mode (_t : TermMode) : TermMode := ⟨true, true⟩

/-- `disable_raw_mode` restores the saved attributes; it does not clear
the `raw_mode_enabled` flag (the C function never writes it). -/
def disable_raw_mode (t : TermMode) : TermMode := ⟨false, t.raw_mode_enabled⟩

/-- The terminal-mode effect of the fatal-error handler `die`: if the flag
is set, clear it and restore the terminal before exiting. -/
def die (t : TermMode) : TermMode :=
  if t.raw_mode_enabled then ⟨false, false⟩ else t

/-! ### `rl_read_line` -/

inductive ReadLineResult where
  | RL_SUCCESS
  | RL_EOF
  | RL_SIGINT
deriving DecidableEq, Repr

/-- Everything a completed `rl_read_line` call leaves behind: the returned
result, the caller's buffer (its `buf_size`-byte window), the history
vector, the global `history_index`, and the terminal mode. -/
structure Outcome where
  result : ReadLineResult
  buf : List Nat
  history : List (List Nat)
  history_index : Nat
  term : TermMode
deriving DecidableEq, Repr

/-- `add_to_history(buf, buf_size)`: append a fresh allocation holding a
copy of `buf_size` bytes of the caller's buffer. -/
def add_to_history (history : List (List Nat)) (buf : List Nat)
    (buf_size : Nat) : List (List Nat) :=
  history ++ [buf.take buf_size]

/-- The state at the top of the edit loop: the caller's buffer has been
appended to the history, `history_index` points at that tail entry, and
the entry has been cleared with `current_buf[0] = '\0'`. -/
def initState (buf_size : Nat) (buf0 : List Nat)
    (history0 : List (List Nat)) : EditState :=
  let history1 := add_to_history history0 buf0 buf_size
  let history_index := history1.length - 1
  ⟨history1.set history_index ((history1.getD history_index []).set 0 0),
    history_index, 0, 0⟩

/-- The `end_of_loop` block (lines 276-295): null-terminate the current
buffer, copy `min(num_chars + 1, buf_size)` bytes into the caller's
buffer, mirror the same bytes onto the tail history entry when the
history cursor is not at the tail, disable raw mode and return
`RL_SUCCESS`.  (The vector's length never changes inside the loop, so
`s.history.length` equals the `history_len` captured before the loop.) -/
def end_of_loop (buf_size : Nat) (buf0 : List Nat) (t : TermMode)
    (s : EditState) : Outcome :=
  let history_len := s.history.length
  let current_buf := (s.history.getD s.history_index []).set s.num_chars 0
  let history1 := s.history.set s.history_index current_buf
  let num_chars_to_copy :=
    if s.num_chars < buf_size then s.num_chars + 1 else buf_size
  let buf1 := memcpyOnto (buf0.take buf_size) current_buf num_chars_to_copy
  let history2 :=
    if s.history_index < history_len - 1 then
      history1.set (history_len - 1)
        (memcpyOnto (history1.getD (history_len - 1) []) current_buf
          num_chars_to_copy)
    else history1
  ⟨.RL_SUCCESS, buf1, history2, s.history_index, disable_raw_mode t⟩

/-- How each way out of the edit loop is turned into a return of
`rl_read_line`: the submit exits run `end_of_loop`; Ctrl+C and Ctrl+D on
an empty line disable raw mode and return at once, leaving the caller's
buffer and the history untouched. -/
def loopOutcome (buf_size : Nat) (buf0 : List Nat) (t : TermMode) :
    LoopExit → Outcome
  | .submitted _ s => end_of_loop buf_size buf0 t s
  | .interrupted s =>
    ⟨.RL_SIGINT, buf0.take buf_size, s.history, s.history_index,
      disable_raw_mode t⟩
  | .endOfInput s =>
    ⟨.RL_EOF, buf0.take buf_size, s.history, s.history_index,
      disable_raw_mode t⟩

/-- `rl_read_line(buf, buf_size, prompt)`.  `buf0` is the caller's buffer
on entry (its contents are arbitrary), `history0` the history built by
earlier calls, `keys` the stream of decoded keys, `t0` the terminal mode
on entry.  The prompt write only touches the screen and is not modelled. -/
def rl_read_line (buf_size : Nat) (buf0 : List Nat)
    (history0 : List (List Nat)) (keys : List Nat) (t0 : TermMode) :
    Option Outcome :=
  (editLoop buf_size (initState buf_size buf0 history0) keys).map
    (loopOutcome buf_size buf0 (enable_raw_mode t0))

/-- The line a successful call submitted: the C string of the history
entry the cursor was on. -/
def submittedContent (o : Outcome) : List Nat :=
  cString (o.history.getD o.history_index [])

/-! ### `read_key`

Input events: each `read` on the raw terminal either delivers a byte or
times out (`VTIME` expires / returns without a byte). -/

inductive InEvent where
  | byte (b : Nat)
  | timeout
deriving DecidableEq, Repr

/-- The `switch (seq[1])` for `ESC [ <digit> ~` sequences. -/
def escBracketTilde (d : Nat) : Nat :=
  if d = 49 ∨ d = 55 then KEY_HOME            -- '1' / '7'
  else if d = 51 then KEY_DELETE              -- '3'
  else if d = 52 ∨ d = 56 then KEY_END        -- '4' / '8'
  else if d = 53 then KEY_PAGE_UP             -- '5'
  else if d = 54 then KEY_PAGE_DOWN           -- '6'
  else KEY_ESC

/-- The letter `switch` shared by the `ESC [ <letter>` and
`ESC O <letter>` families. -/
def escLetterKey (l : Nat) : Nat :=
  if l = 65 then KEY_ARROW_UP                 -- 'A'
  else if l = 66 then KEY_ARROW_DOWN          -- 'B'
  else if l = 67 then KEY_ARROW_RIGHT         -- 'C'
  else if l = 68 then KEY_ARROW_LEFT          -- 'D'
  else if l = 70 then KEY_END                 -- 'F'
  else if l = 72 then KEY_HOME                -- 'H'
  else KEY_ESC

/-- The escape-sequence lookahead of `read_key` (from the
`read_esc_seq` label on): every timed-out or missing byte and every
unrecognized shape degrades to the plain `KEY_ESC`; a second leading ESC
restarts the read.  Returns the decoded key and the unconsumed input. -/
def read_esc_seq : List InEvent → Nat × List InEvent
  | [] => (KEY_ESC, [])
  | .timeout :: rest => (KEY_ESC, rest)
  | .byte b :: rest =>
    if b = KEY_ESC then read_esc_seq rest
    else if b = 91 then                        -- '['
      match rest with
      | [] => (KEY_ESC, [])
      | .timeout :: r2 => (KEY_ESC, r2)
      | .byte b2 :: r2 =>
        if 48 ≤ b2 ∧ b2 ≤ 57 then              -- '0' .. '9'
          match r2 with
          | [] => (KEY_ESC, [])
          | .timeout :: r3 => (KEY_ESC, r3)
          | .byte b3 :: r3 =>
            if b3 = 126 then (escBracketTilde b2, r3)   -- '~'
            else
              -- read the 5th byte; if it arrived, read a 6th, then ESC
              match r3 with
              | [] => (KEY_ESC, [])
              | .timeout :: r4 => (KEY_ESC, r4)
              | .byte _ :: r4 => (KEY_ESC, r4.tail)
        else (escLetterKey b2, r2)
    else if b = 79 then                        -- 'O'
      match rest with
      | [] => (KEY_ESC, [])
      | .timeout :: r2 => (KEY_ESC, r2)
      | .byte b2 :: r2 => (escLetterKey b2, r2)
    else (KEY_ESC, rest)

/-- `read_key`: retry until a byte arrives (the do-while), return it
directly unless it is ESC, in which case decode the escape sequence.
`none` models a stream that never delivers another byte. -/
def read_key : List InEvent → Option (Nat × List InEvent)
  | [] => none
  | .timeout :: rest => read_key rest
  | .byte c :: rest =>
    if c = KEY_ESC then some (read_esc_seq rest) else some (c, rest)

/-! ### Invariants (definitions) -/

/-- An allocation is null-terminated within its tracked bytes: the byte
right after its C string is a `0`. -/
def nullTerminated (e : List Nat) : Prop := e[strlen e]? = some 0

instance (e : List Nat) : Decidable (nullTerminated e) := by
  unfold nullTerminated; infer_instance

/-- The invariant the edit loop maintains: the history cursor is in
range, the cursor offset never exceeds the line length, `num_chars` is
the `strlen` of the live entry, and every history entry is
null-terminated. -/
structure CInv (s : EditState) : Prop where
  idx_lt : s.history_index < s.history.length
  cursor_le : s.cursor_pos ≤ s.num_chars
  num_eq : s.num_chars = strlen (s.history.getD s.history_index [])
  nt : ∀ i, i < s.history.length → nullTerminated (s.history.getD i [])

/-- The line-buffer invariant of the specification: the loop invariant
plus the capacity bounds — the line length (and every entry's content)
stays strictly below the buffer capacity. -/
def lineBufferInv (buf_size : Nat) (s : EditState) : Prop :=
  CInv s ∧ s.num_chars + 1 ≤ buf_size ∧
    ∀ i, i < s.history.length → strlen (s.history.getD i []) + 1 ≤ buf_size

/-! ### List helpers -/

theorem getD_set_self {α : Type} (l : List α) (n : Nat) (a d : α)
    (h : n < l.length) : (l.set n a).getD n d = a := by
  induction l generalizing n with
  | nil => simp at h
  | cons x xs ih =>
    cases n with
    | zero => rfl
    | succ m => simpa using ih m (by simpa using h)

theorem getD_set_ne {α : Type} (l : List α) (m n : Nat) (a d : α)
    (h : m ≠ n) : (l.set m a).getD n d = l.getD n d := by
  induction l generalizing m n with
  | nil => simp
  | cons x xs ih =>
    cases m with
    | zero =>
      cases n with
      | zero => exact absurd rfl h
      | succ j => rfl
    | succ i =>
      cases n with
      | zero => rfl
      | succ j => simpa using ih i j (by omega)

theorem set_getD_self {α : Type} (l : List α) (n : Nat) (d : α)
    (h : n < l.length) : l.set n (l.getD n d) = l := by
  induction l generalizing n with
  | nil => simp at h
  | cons x xs ih =>
    cases n with
    | zero => rfl
    | succ m => simpa using ih m (by simpa using h)

theorem set_eq_self_of_getElem? {α : Type} (l : List α) (n : Nat) (a : α)
    (h : l[n]? = some a) : l.set n a = l := by
  induction l generalizing n with
  | nil => simp at h
  | cons x xs ih =>
    cases n with
    | zero => simp_all
    | succ m => simpa using ih m (by simpa using h)

theorem set_oob {α : Type} (l : List α) (n : Nat) (a : α)
    (h : l.length ≤ n) : l.set n a = l := by
  induction l generalizing n with
  | nil => rfl
  | cons x xs ih =>
    cases n with
    | zero => simp at h
    | succ m => simpa using ih m (by simpa using h)

theorem getD_append_left {α : Type} (l r : List α) (n : Nat) (d : α)
    (h : n < l.length) : (l ++ r).getD n d = l.getD n d := by
  induction l generalizing n with
  | nil => simp at h
  | cons x xs ih =>
    cases n with
    | zero => rfl
    | succ m => simpa using ih m (by simpa using h)

theorem getD_append_length {α : Type} (l : List α) (b : α) (r : List α)
    (d : α) : (l ++ b :: r).getD l.length d = b := by
  induction l with
  | nil => rfl
  | cons x xs ih => simpa using ih

theorem getD_mem {α : Type} (l : List α) (n : Nat) (d : α)
    (h : n < l.length) : l.getD n d ∈ l := by
  induction l generalizing n with
  | nil => simp at h
  | cons x xs ih =>
    cases n with
    | zero => simp
    | succ m => simpa using Or.inr (ih m (by simpa using h))

theorem getElem?_append_cons {α : Type} (c : List α) (b : α) (r : List α) :
    (c ++ b :: r)[c.length]? = some b := by
  induction c with
  | nil => simp
  | cons x xs ih => simpa using ih

theorem take_append_cons {α : Type} (c : List α) (b : α) (r : List α) :
    (c ++ b :: r).take (c.length + 1) = c ++ [b] := by
  induction c with
  | nil => rfl
  | cons x xs ih => simpa using ih

theorem take_append_left {α : Type} (c r : List α) (n : Nat)
    (h : n ≤ c.length) : (c ++ r).take n = c.take n := by
  induction c generalizing n with
  | nil =>
    have : n = 0 := by simpa using h
    simp [this]
  | cons x xs ih =>
    cases n with
    | zero => rfl
    | succ m => simpa using ih m (by simpa using h)

theorem drop_append_length {α : Type} (c r : List α) :
    (c ++ r).drop c.length = r := by
  induction c with
  | nil => rfl
  | cons x xs ih => simp

/-! ### `cString` lemmas -/

theorem cString_ne_zero (e : List Nat) : ∀ b ∈ cString e, b ≠ 0 := by
  induction e with
  | nil => intro b hb; simp [cString] at hb
  | cons x xs ih =>
    intro b hb
    by_cases hx : x = 0
    · simp [cString, hx] at hb
    · rw [cString, if_neg hx] at hb
      rcases List.mem_cons.mp hb with h | h
      · exact h ▸ hx
      · exact ih b h

theorem cString_append_cons_zero (c r : List Nat) (h : ∀ b ∈ c, b ≠ 0) :
    cString (c ++ 0 :: r) = c := by
  induction c with
  | nil => simp [cString]
  | cons x xs ih =>
    have hx : x ≠ 0 := h x (List.mem_cons_self x xs)
    rw [List.cons_append, cString, if_neg hx,
      ih (fun b hb => h b (List.mem_cons_of_mem x hb))]

theorem cString_append_zero (c : List Nat) (h : ∀ b ∈ c, b ≠ 0) :
    cString (c ++ [0]) = c :=
  cString_append_cons_zero c [] h

theorem strlen_append_zero (c : List Nat) (h : ∀ b ∈ c, b ≠ 0) :
    strlen (c ++ [0]) = c.length := by
  rw [strlen, cString_append_zero c h]

theorem cString_set_zero_zero (l : List Nat) : cString (l.set 0 0) = [] := by
  cases l with
  | nil => rfl
  | cons x xs => simp [cString]

/-! ### Null-terminated allocations -/

theorem nullTerminated_append_zero (c : List Nat) (h : ∀ b ∈ c, b ≠ 0) :
    nullTerminated (c ++ [0]) := by
  rw [nullTerminated, strlen_append_zero c h]
  exact getElem?_append_cons c 0 []

theorem nullTerminated_decomp (e : List Nat) (h : nullTerminated e) :
    ∃ r, e = cString e ++ 0 :: r := by
  induction e with
  | nil => simp [nullTerminated, strlen, cString] at h
  | cons x xs ih =>
    by_cases hx : x = 0
    · exact ⟨xs, by simp [cString, hx]⟩
    · rw [nullTerminated, strlen, cString, if_neg hx] at h
      simp only [List.length_cons, List.getElem?_cons_succ] at h
      obtain ⟨r, hr⟩ := ih h
      exact ⟨r, by rw [cString, if_neg hx, List.cons_append, ← hr]⟩

theorem insert_content_ne_zero (c : List Nat) (p k : Nat) (hk : k ≠ 0)
    (hc : ∀ b ∈ c, b ≠ 0) : ∀ b ∈ c.take p ++ k :: c.drop p, b ≠ 0 := by
  intro b hb
  rcases List.mem_append.mp hb with h | h
  · exact hc b (List.take_subset p c h)
  · rcases List.mem_cons.mp h with h | h
    · exact h ▸ hk
    · exact hc b (List.drop_subset p c h)

theorem erase_content_ne_zero (c : List Nat) (p q : Nat)
    (hc : ∀ b ∈ c, b ≠ 0) : ∀ b ∈ c.take p ++ c.drop q, b ≠ 0 := by
  intro b hb
  rcases List.mem_append.mp hb with h | h
  · exact hc b (List.take_subset p c h)
  · exact hc b (List.drop_subset q c h)

/-! ### The edit-loop invariant -/

theorem insertKey_CInv (s : EditState) (k : Nat) (hk0 : k ≠ 0)
    (h : CInv s) : CInv (insertKey s k) := by
  obtain ⟨hIdx, hCur, hNum, hNT⟩ := h
  have hfree := cString_ne_zero (s.history.getD s.history_index [])
  have hclen : (cString (s.history.getD s.history_index [])).length = s.num_chars :=
    hNum.symm
  have hX := insert_content_ne_zero _ s.cursor_pos k hk0 hfree
  refine ⟨by simpa [insertKey] using hIdx, Nat.succ_le_succ hCur, ?_, ?_⟩
  · show s.num_chars + 1 = strlen ((s.history.set s.history_index _).getD s.history_index [])
    rw [getD_set_self _ _ _ _ hIdx, strlen_append_zero _ hX]
    simp only [List.length_append, List.length_cons, List.length_take,
      List.length_drop]
    omega
  · intro i hi
    simp only [insertKey, List.length_set] at hi ⊢
    by_cases hii : s.history_index = i
    · subst hii
      rw [getD_set_self _ _ _ _ hIdx]
      exact nullTerminated_append_zero _ hX
    · rw [getD_set_ne _ _ _ _ _ hii]
      exact hNT i hi

theorem backspaceKey_CInv (s : EditState) (h : CInv s) :
    CInv (backspaceKey s) := by
  obtain ⟨hIdx, hCur, hNum, hNT⟩ := h
  have hfree := cString_ne_zero (s.history.getD s.history_index [])
  have hclen : (cString (s.history.getD s.history_index [])).length = s.num_chars :=
    hNum.symm
  unfold backspaceKey
  split_ifs with hb0
  · exact ⟨hIdx, hCur, hNum, hNT⟩
  · have hX := erase_content_ne_zero _ (s.cursor_pos - 1) s.cursor_pos hfree
    refine ⟨by simpa using hIdx, ?_, ?_, ?_⟩
    · show s.cursor_pos - 1 ≤ s.num_chars - 1
      omega
    · show s.num_chars - 1 = strlen ((s.history.set s.history_index _).getD s.history_index [])
      rw [getD_set_self _ _ _ _ hIdx, strlen_append_zero _ hX]
      simp only [List.length_append, List.length_take, List.length_drop]
      omega
    · intro i hi
      simp only [List.length_set] at hi ⊢
      by_cases hii : s.history_index = i
      · subst hii
        rw [getD_set_self _ _ _ _ hIdx]
        exact nullTerminated_append_zero _ hX
      · rw [getD_set_ne _ _ _ _ _ hii]
        exact hNT i hi

theorem arrowKey_CInv (s : EditState) (k : Nat)
    (hk : k = KEY_ARROW_UP ∨ k = KEY_ARROW_DOWN) (h : CInv s) :
    CInv (arrowKey s k) := by
  obtain ⟨hIdx, hCur, hNum, hNT⟩ := h
  unfold arrowKey
  split_ifs with hno hup
  · exact ⟨hIdx, hCur, hNum, hNT⟩
  · refine ⟨?_, le_refl _, rfl, hNT⟩
    show s.history_index - 1 < s.history.length
    omega
  · have hdn : k = KEY_ARROW_DOWN := by
      rcases hk with h | h
      · exact absurd h hup
      · exact h
    have hne : s.history_index ≠ s.history.length - 1 := by
      intro hcontra
      exact hno (Or.inr ⟨hdn, hcontra⟩)
    refine ⟨?_, le_refl _, rfl, hNT⟩
    show s.history_index + 1 < s.history.length
    omega

theorem leftKey_CInv (s : EditState) (h : CInv s) : CInv (leftKey s) := by
  obtain ⟨hIdx, hCur, hNum, hNT⟩ := h
  unfold leftKey
  split_ifs
  · exact ⟨hIdx, hCur, hNum, hNT⟩
  · refine ⟨hIdx, ?_, hNum, hNT⟩
    show s.cursor_pos - 1 ≤ s.num_chars
    omega

theorem rightKey_CInv (s : EditState) (h : CInv s) : CInv (rightKey s) := by
  obtain ⟨hIdx, hCur, hNum, hNT⟩ := h
  unfold rightKey
  split_ifs with hend
  · exact ⟨hIdx, hCur, hNum, hNT⟩
  · refine ⟨hIdx, ?_, hNum, hNT⟩
    show s.cursor_pos + 1 ≤ s.num_chars
    omega

/-- Every single key-dispatch step preserves the invariant. -/
theorem stepKey_CInv (s : EditState) (k : Nat) (h : CInv s) :
    CInv (stepKey s k).state := by
  unfold stepKey
  split_ifs with hp he hc hd hd0 hb har hl hr
  · exact insertKey_CInv s k
      (by simp only [isprint, Bool.and_eq_true, decide_eq_true_eq] at hp; omega) h
  · exact h
  · exact h
  · exact h
  · exact h
  · exact backspaceKey_CInv s h
  · exact arrowKey_CInv s k har h
  · exact leftKey_CInv s h
  · exact rightKey_CInv s h
  · exact h

theorem backspaceKey_history (s : EditState) :
    (backspaceKey s).history = s.history ∨
      ∃ e, (backspaceKey s).history = s.history.set s.history_index e := by
  unfold backspaceKey
  split_ifs
  · exact Or.inl rfl
  · exact Or.inr ⟨_, rfl⟩

theorem arrowKey_history (s : EditState) (k : Nat) :
    (arrowKey s k).history = s.history := by
  unfold arrowKey
  split_ifs <;> rfl

theorem leftKey_history (s : EditState) : (leftKey s).history = s.history := by
  unfold leftKey
  split_ifs <;> rfl

theorem rightKey_history (s : EditState) : (rightKey s).history = s.history := by
  unfold rightKey
  split_ifs <;> rfl

/-- A step either leaves the history vector unchanged or rewrites the
entry at the current history index in place; no entry is ever removed,
added or reordered by the loop. -/
theorem stepKey_history (s : EditState) (k : Nat) :
    (stepKey s k).state.history = s.history ∨
      ∃ e, (stepKey s k).state.history = s.history.set s.history_index e := by
  unfold stepKey
  split_ifs
  · exact Or.inr ⟨_, rfl⟩
  · exact Or.inl rfl
  · exact Or.inl rfl
  · exact Or.inl rfl
  · exact Or.inl rfl
  · exact backspaceKey_history s
  · exact Or.inl (arrowKey_history s k)
  · exact Or.inl (leftKey_history s)
  · exact Or.inl (rightKey_history s)
  · exact Or.inl rfl

theorem stepKey_length (s : EditState) (k : Nat) :
    (stepKey s k).state.history.length = s.history.length := by
  rcases stepKey_history s k with h | ⟨e, h⟩ <;> simp [h]

/-- Arrow Up / Down never touch the history contents, only the index. -/
theorem stepKey_arrow_history (s : EditState) (k : Nat)
    (h : k = KEY_ARROW_UP ∨ k = KEY_ARROW_DOWN) :
    (stepKey s k).state.history = s.history := by
  have hdisp : stepKey s k = .next (arrowKey s k) := by
    rcases h with h | h <;> subst h <;> rfl
  rw [hdisp]
  exact arrowKey_history s k

/-- The Enter / Ctrl+D submit exits leave the state unchanged. -/
theorem stepKey_submit_state (s : EditState) (k : Nat) (s1 : EditState)
    (hEq : stepKey s k = .submit s1) : s1 = s := by
  unfold stepKey at hEq
  split_ifs at hEq <;>
    first
      | exact StepResult.noConfusion hEq
      | (injection hEq with hh; exact hh.symm)

/-! ### Loop-level lemmas -/

/-- The invariant is preserved through a whole run of the edit loop. -/
theorem editLoop_CInv (buf_size : Nat) (keys : List Nat) :
    ∀ (s : EditState) (ex : LoopExit), CInv s →
      editLoop buf_size s keys = some ex → CInv ex.state := by
  induction keys with
  | nil =>
    intro s ex h hrun
    unfold editLoop at hrun
    split_ifs at hrun
    cases hrun
    exact h
  | cons k ks ih =>
    intro s ex h hrun
    unfold editLoop at hrun
    split_ifs at hrun with hg
    · cases hstep : stepKey s k with
      | next s1 =>
        rw [hstep] at hrun
        have h1 := stepKey_CInv s k h
        rw [hstep] at h1
        exact ih s1 ex h1 hrun
      | submit s1 =>
        rw [hstep] at hrun
        have hrun' : some (LoopExit.submitted true s1) = some ex := hrun
        cases hrun'
        have h1 := stepKey_CInv s k h
        rw [hstep] at h1
        exact h1
      | sigint s1 =>
        rw [hstep] at hrun
        have hrun' : some (LoopExit.interrupted s1) = some ex := hrun
        cases hrun'
        have h1 := stepKey_CInv s k h
        rw [hstep] at h1
        exact h1
      | eofExit s1 =>
        rw [hstep] at hrun
        have hrun' : some (LoopExit.endOfInput s1) = some ex := hrun
        cases hrun'
        have h1 := stepKey_CInv s k h
        rw [hstep] at h1
        exact h1
    · cases hrun
      exact h

/-- The loop never grows or shrinks the history vector. -/
theorem editLoop_length (buf_size : Nat) (keys : List Nat) :
    ∀ (s : EditState) (ex : LoopExit),
      editLoop buf_size s keys = some ex →
      ex.state.history.length = s.history.length := by
  induction keys with
  | nil =>
    intro s ex hrun
    unfold editLoop at hrun
    split_ifs at hrun
    cases hrun
    rfl
  | cons k ks ih =>
    intro s ex hrun
    unfold editLoop at hrun
    split_ifs at hrun with hg
    · cases hstep : stepKey s k with
      | next s1 =>
        rw [hstep] at hrun
        have h2 := stepKey_length s k
        rw [hstep] at h2
        rw [ih s1 ex hrun]
        exact h2
      | submit s1 =>
        rw [hstep] at hrun
        have hrun' : some (LoopExit.submitted true s1) = some ex := hrun
        cases hrun'
        have h2 := stepKey_length s k
        rw [hstep] at h2
        exact h2
      | sigint s1 =>
        rw [hstep] at hrun
        have hrun' : some (LoopExit.interrupted s1) = some ex := hrun
        cases hrun'
        have h2 := stepKey_length s k
        rw [hstep] at h2
        exact h2
      | eofExit s1 =>
        rw [hstep] at hrun
        have hrun' : some (LoopExit.endOfInput s1) = some ex := hrun
        cases hrun'
        have h2 := stepKey_length s k
        rw [hstep] at h2
        exact h2
    · cases hrun
      rfl

/-- When the loop exits through Enter / Ctrl+D (`via_key = true`), the
final state still satisfies the loop guard: the key that caused the exit
was read with `num_chars < buf_size - 1`, and those keys do not modify
the state. -/
theorem editLoop_submit_guard (buf_size : Nat) (keys : List Nat) :
    ∀ (s s1 : EditState),
      editLoop buf_size s keys = some (.submitted true s1) →
      s1.num_chars < buf_size - 1 := by
  induction keys with
  | nil =>
    intro s s1 hrun
    unfold editLoop at hrun
    split_ifs at hrun
    cases hrun
  | cons k ks ih =>
    intro s s1 hrun
    unfold editLoop at hrun
    split_ifs at hrun with hg
    · cases hstep : stepKey s k with
      | next s2 =>
        rw [hstep] at hrun
        exact ih s2 s1 hrun
      | submit s2 =>
        rw [hstep] at hrun
        have hrun' : some (LoopExit.submitted true s2) =
            some (LoopExit.submitted true s1) := hrun
        have hs : s2 = s1 := by
          injection hrun' with h2
          injection h2 with h2a h2b
        have hs2 : s2 = s := stepKey_submit_state s k s2 hstep
        rw [← hs, hs2]
        exact hg
      | sigint s2 =>
        rw [hstep] at hrun
        simp at hrun
      | eofExit s2 =>
        rw [hstep] at hrun
        simp at hrun
    · simp at hrun

/-! ### The state at the top of the loop -/

theorem nullTerminated_set_zero_zero (l : List Nat) (hl : l ≠ []) :
    nullTerminated (l.set 0 0) := by
  cases l with
  | nil => exact absurd rfl hl
  | cons x xs =>
    rw [nullTerminated, strlen, cString_set_zero_zero]
    simp

theorem initState_CInv (buf_size : Nat) (buf0 : List Nat)
    (history0 : List (List Nat)) (hbs : 1 ≤ buf_size)
    (hbuf : buf_size ≤ buf0.length)
    (hh0 : ∀ e ∈ history0, nullTerminated e) :
    CInv (initState buf_size buf0 history0) := by
  have hne : buf0.take buf_size ≠ [] := by
    have : (buf0.take buf_size).length = buf_size := by
      simp [List.length_take]
      omega
    intro hcontra
    rw [hcontra] at this
    simp at this
    omega
  unfold initState add_to_history
  simp only [List.length_append, List.length_singleton, Nat.add_sub_cancel]
  rw [getD_append_length]
  refine ⟨?_, le_refl 0, ?_, ?_⟩
  · simp
  · show 0 = strlen (((history0 ++ [buf0.take buf_size]).set history0.length
      ((buf0.take buf_size).set 0 0)).getD history0.length [])
    rw [getD_set_self _ _ _ _ (by simp), strlen, cString_set_zero_zero]
    rfl
  · intro i hi
    simp only [List.length_set, List.length_append, List.length_singleton] at hi
    by_cases hii : history0.length = i
    · subst hii
      rw [getD_set_self _ _ _ _ (by simp)]
      exact nullTerminated_set_zero_zero _ hne
    · rw [getD_set_ne _ _ _ _ _ hii,
        getD_append_left _ _ _ _ (by omega)]
      exact hh0 _ (getD_mem _ _ _ (by omega))

/-! ### The `end_of_loop` block under the invariant -/

/-- Under the loop invariant the null write at `end_of_loop` is the
identity (the live entry is already terminated at `num_chars`), so the
block reduces to the two `memcpy`s. -/
theorem end_of_loop_eq (buf_size : Nat) (buf0 : List Nat) (t : TermMode)
    (s : EditState) (h : CInv s) :
    end_of_loop buf_size buf0 t s =
      ⟨.RL_SUCCESS,
        memcpyOnto (buf0.take buf_size) (s.history.getD s.history_index [])
          (if s.num_chars < buf_size then s.num_chars + 1 else buf_size),
        (if s.history_index < s.history.length - 1 then
          s.history.set (s.history.length - 1)
            (memcpyOnto (s.history.getD (s.history.length - 1) [])
              (s.history.getD s.history_index [])
              (if s.num_chars < buf_size then s.num_chars + 1 else buf_size))
        else s.history),
        s.history_index, disable_raw_mode t⟩ := by
  obtain ⟨hIdx, hCur, hNum, hNT⟩ := h
  have hterm : (s.history.getD s.history_index []).set s.num_chars 0 =
      s.history.getD s.history_index [] := by
    apply set_eq_self_of_getElem?
    have hnt := hNT s.history_index hIdx
    rw [nullTerminated] at hnt
    rw [hNum]
    exact hnt
  simp only [end_of_loop]
  rw [hterm, set_getD_self _ _ _ hIdx]

/-- The `memcpy` of `strlen + 1` bytes copies the C string and its
terminator. -/
theorem memcpy_full (dst e : List Nat) (h : nullTerminated e) :
    memcpyOnto dst e (strlen e + 1) =
      (cString e ++ [0]) ++ dst.drop (strlen e + 1) := by
  obtain ⟨r, hr⟩ := nullTerminated_decomp e h
  have ht := take_append_cons (cString e) 0 r
  rw [← hr] at ht
  rw [memcpyOnto]
  congr 1

/-- A truncating `memcpy` of `n ≤ strlen` bytes copies content bytes
only: no null terminator is transferred. -/
theorem memcpy_trunc (dst e : List Nat) (n : Nat) (h : nullTerminated e)
    (hn : n ≤ strlen e) :
    memcpyOnto dst e n = (cString e).take n ++ dst.drop n := by
  obtain ⟨r, hr⟩ := nullTerminated_decomp e h
  have ht := take_append_left (cString e) (0 :: r) n hn
  rw [← hr] at ht
  rw [memcpyOnto]
  congr 1

theorem cString_copy_full (dst e : List Nat) (h : nullTerminated e) :
    cString (memcpyOnto dst e (strlen e + 1)) = cString e := by
  rw [memcpy_full dst e h, List.append_assoc]
  simp only [List.singleton_append]
  exact cString_append_cons_zero _ _ (cString_ne_zero e)

theorem getElem?_copy_full (dst e : List Nat) (h : nullTerminated e) :
    (memcpyOnto dst e (strlen e + 1))[strlen e]? = some 0 := by
  rw [memcpy_full dst e h, List.append_assoc]
  simp only [List.singleton_append]
  rw [strlen]
  exact getElem?_append_cons _ 0 _

/-- Splitting a successful `rl_read_line` run into its loop exit. -/
theorem rl_read_line_some (buf_size : Nat) (buf0 : List Nat)
    (history0 : List (List Nat)) (keys : List Nat) (t0 : TermMode)
    (out : Outcome)
    (hrun : rl_read_line buf_size buf0 history0 keys t0 = some out) :
    ∃ ex, editLoop buf_size (initState buf_size buf0 history0) keys = some ex ∧
      out = loopOutcome buf_size buf0 (enable_raw_mode t0) ex := by
  unfold rl_read_line at hrun
  cases hcase : editLoop buf_size (initState buf_size buf0 history0) keys with
  | none =>
    rw [hcase] at hrun
    cases hrun
  | some ex =>
    rw [hcase] at hrun
    refine ⟨ex, rfl, ?_⟩
    have hrun' : some (loopOutcome buf_size buf0 (enable_raw_mode t0) ex) =
        some out := hrun
    injection hrun' with h2
    exact h2.symm

theorem end_of_loop_history_length (buf_size : Nat) (buf0 : List Nat)
    (t : TermMode) (s : EditState) :
    (end_of_loop buf_size buf0 t s).history.length = s.history.length := by
  simp only [end_of_loop]
  split_ifs <;> simp [List.length_set]

theorem loopOutcome_history_length (buf_size : Nat) (buf0 : List Nat)
    (t : TermMode) (ex : LoopExit) :
    (loopOutcome buf_size buf0 t ex).history.length =
      ex.state.history.length := by
  cases ex with
  | submitted via_key s => exact end_of_loop_history_length buf_size buf0 t s
  | interrupted s => rfl
  | endOfInput s => rfl

/-- Normal form of the state at the top of the loop. -/
theorem initState_fields (buf_size : Nat) (buf0 : List Nat)
    (history0 : List (List Nat)) :
    initState buf_size buf0 history0 =
      ⟨(history0 ++ [buf0.take buf_size]).set history0.length
          ((buf0.take buf_size).set 0 0),
        history0.length, 0, 0⟩ := by
  unfold initState add_to_history
  simp only [List.length_append, List.length_singleton, Nat.add_sub_cancel]
  rw [getD_append_length]

theorem initState_history_length (buf_size : Nat) (buf0 : List Nat)
    (history0 : List (List Nat)) :
    (initState buf_size buf0 history0).history.length =
      history0.length + 1 := by
  rw [initState_fields]
  simp

/-! ### Dispatch facts for particular keys -/

theorem stepKey_enter (s : EditState) : stepKey s KEY_ENTER = .submit s := rfl

theorem stepKey_ctrl_d_empty (s : EditState) (h : s.num_chars = 0) :
    stepKey s (CTRL_KEY 100) = .eofExit s := by
  show (if s.num_chars = 0 then StepResult.eofExit s else StepResult.submit s) =
    .eofExit s
  rw [if_pos h]

theorem stepKey_ctrl_d_nonempty (s : EditState) (h : s.num_chars ≠ 0) :
    stepKey s (CTRL_KEY 100) = .submit s := by
  show (if s.num_chars = 0 then StepResult.eofExit s else StepResult.submit s) =
    .submit s
  rw [if_neg h]

theorem leftKey_num_chars (s : EditState) :
    (leftKey s).num_chars = s.num_chars := by
  unfold leftKey
  split_ifs <;> rfl

theorem rightKey_num_chars (s : EditState) :
    (rightKey s).num_chars = s.num_chars := by
  unfold rightKey
  split_ifs <;> rfl

/-! ### Capacity bounds through one step -/

theorem insertKey_bounds (buf_size : Nat) (s : EditState) (k : Nat)
    (hC : CInv s)
    (hEnt : ∀ i, i < s.history.length →
      strlen (s.history.getD i []) + 1 ≤ buf_size)
    (hg : s.num_chars < buf_size - 1) (hk0 : k ≠ 0) :
    (insertKey s k).num_chars + 1 ≤ buf_size ∧
      ∀ i, i < (insertKey s k).history.length →
        strlen ((insertKey s k).history.getD i []) + 1 ≤ buf_size := by
  obtain ⟨hIdx, hCur, hNum, hNT⟩ := hC
  have hclen : (cString (s.history.getD s.history_index [])).length =
      s.num_chars := hNum.symm
  have hfree := cString_ne_zero (s.history.getD s.history_index [])
  have hX := insert_content_ne_zero _ s.cursor_pos k hk0 hfree
  constructor
  · show s.num_chars + 1 + 1 ≤ buf_size
    omega
  · intro i hi
    simp only [insertKey, List.length_set] at hi ⊢
    by_cases hii : s.history_index = i
    · subst hii
      rw [getD_set_self _ _ _ _ hIdx, strlen_append_zero _ hX]
      simp only [List.length_append, List.length_cons, List.length_take,
        List.length_drop]
      omega
    · rw [getD_set_ne _ _ _ _ _ hii]
      exact hEnt i hi

theorem backspaceKey_bounds (buf_size : Nat) (s : EditState)
    (hC : CInv s)
    (hEnt : ∀ i, i < s.history.length →
      strlen (s.history.getD i []) + 1 ≤ buf_size)
    (hNumB : s.num_chars + 1 ≤ buf_size) :
    (backspaceKey s).num_chars + 1 ≤ buf_size ∧
      ∀ i, i < (backspaceKey s).history.length →
        strlen ((backspaceKey s).history.getD i []) + 1 ≤ buf_size := by
  obtain ⟨hIdx, hCur, hNum, hNT⟩ := hC
  have hclen : (cString (s.history.getD s.history_index [])).length =
      s.num_chars := hNum.symm
  have hfree := cString_ne_zero (s.history.getD s.history_index [])
  unfold backspaceKey
  split_ifs with hb0
  · exact ⟨hNumB, hEnt⟩
  · have hX := erase_content_ne_zero _ (s.cursor_pos - 1) s.cursor_pos hfree
    constructor
    · show s.num_chars - 1 + 1 ≤ buf_size
      omega
    · intro i hi
      simp only [List.length_set] at hi ⊢
      by_cases hii : s.history_index = i
      · subst hii
        rw [getD_set_self _ _ _ _ hIdx, strlen_append_zero _ hX]
        simp only [List.length_append, List.length_take, List.length_drop]
        omega
      · rw [getD_set_ne _ _ _ _ _ hii]
        exact hEnt i hi

theorem arrowKey_bounds (buf_size : Nat) (s : EditState) (k : Nat)
    (hk : k = KEY_ARROW_UP ∨ k = KEY_ARROW_DOWN) (hC : CInv s)
    (hEnt : ∀ i, i < s.history.length →
      strlen (s.history.getD i []) + 1 ≤ buf_size)
    (hNumB : s.num_chars + 1 ≤ buf_size) :
    (arrowKey s k).num_chars + 1 ≤ buf_size ∧
      ∀ i, i < (arrowKey s k).history.length →
        strlen ((arrowKey s k).history.getD i []) + 1 ≤ buf_size := by
  obtain ⟨hIdx, hCur, hNum, hNT⟩ := hC
  unfold arrowKey
  split_ifs with hno hup
  · exact ⟨hNumB, hEnt⟩
  · refine ⟨?_, hEnt⟩
    show strlen (s.history.getD (s.history_index - 1) []) + 1 ≤ buf_size
    exact hEnt _ (by omega)
  · have hdn : k = KEY_ARROW_DOWN := by
      rcases hk with h | h
      · exact absurd h hup
      · exact h
    have hne : s.history_index ≠ s.history.length - 1 := by
      intro hcontra
      exact hno (Or.inr ⟨hdn, hcontra⟩)
    refine ⟨?_, hEnt⟩
    show strlen (s.history.getD (s.history_index + 1) []) + 1 ≤ buf_size
    exact hEnt _ (by omega)

/-- One dispatch step preserves the capacity bounds, provided the loop
guard held when the key was read. -/
theorem stepKey_bounds (buf_size : Nat) (s : EditState) (k : Nat)
    (hC : CInv s)
    (hEnt : ∀ i, i < s.history.length →
      strlen (s.history.getD i []) + 1 ≤ buf_size)
    (hNumB : s.num_chars + 1 ≤ buf_size)
    (hg : s.num_chars < buf_size - 1) :
    (stepKey s k).state.num_chars + 1 ≤ buf_size ∧
      ∀ i, i < (stepKey s k).state.history.length →
        strlen ((stepKey s k).state.history.getD i []) + 1 ≤ buf_size := by
  unfold stepKey
  split_ifs with hp he hc hd hd0 hb har hl hr
  · exact insertKey_bounds buf_size s k hC hEnt hg
      (by simp only [isprint, Bool.and_eq_true, decide_eq_true_eq] at hp; omega)
  · exact ⟨hNumB, hEnt⟩
  · exact ⟨hNumB, hEnt⟩
  · exact ⟨hNumB, hEnt⟩
  · exact ⟨hNumB, hEnt⟩
  · exact backspaceKey_bounds buf_size s hC hEnt hNumB
  · exact arrowKey_bounds buf_size s k har hC hEnt hNumB
  · rw [show (StepResult.next (leftKey s)).state = leftKey s from rfl,
      leftKey_num_chars, leftKey_history]
    exact ⟨hNumB, hEnt⟩
  · rw [show (StepResult.next (rightKey s)).state = rightKey s from rfl,
      rightKey_num_chars, rightKey_history]
    exact ⟨hNumB, hEnt⟩
  · exact ⟨hNumB, hEnt⟩

/-! ### Insert then backspace -/

theorem insert_erase_content (c0 : List Nat) (p k : Nat)
    (hp : p ≤ c0.length) :
    (c0.take p ++ k :: c0.drop p).take (p + 1 - 1)
      ++ (c0.take p ++ k :: c0.drop p).drop (p + 1) = c0 := by
  have h1 : (c0.take p ++ k :: c0.drop p).take p = c0.take p := by
    rw [take_append_left _ _ p (by simp [List.length_take]; omega)]
    simp [List.take_take]
  have h2 : (c0.take p ++ k :: c0.drop p).drop (p + 1) = c0.drop p := by
    have hsplit : c0.take p ++ k :: c0.drop p =
        (c0.take p ++ [k]) ++ c0.drop p := by
      simp
    have hl : (c0.take p ++ [k]).length = p + 1 := by
      simp [List.length_take]
      omega
    rw [hsplit, ← hl, drop_append_length]
  simp only [Nat.add_sub_cancel]
  rw [h1, h2, List.take_append_drop]

/-- Inserting a printable byte and then pressing Backspace restores the
original state (as a record): content, cursor and length all return to
their previous values. -/
theorem backspace_insertKey (s : EditState) (c : Nat) (hc0 : c ≠ 0)
    (hidx : s.history_index < s.history.length)
    (hp : s.cursor_pos ≤ (cString (s.history.getD s.history_index [])).length) :
    backspaceKey (insertKey s c) =
      ⟨s.history.set s.history_index
          (cString (s.history.getD s.history_index []) ++ [0]),
        s.history_index, s.cursor_pos, s.num_chars⟩ := by
  have hfree := cString_ne_zero (s.history.getD s.history_index [])
  have hX := insert_content_ne_zero _ s.cursor_pos c hc0 hfree
  unfold insertKey backspaceKey
  dsimp only
  rw [if_neg (show ¬ s.cursor_pos + 1 = 0 by omega)]
  rw [getD_set_self _ _ _ _ hidx, cString_append_zero _ hX, List.set_set]
  congr 1
  rw [insert_erase_content _ _ _ hp]

theorem drop_all {α : Type} (l : List α) (n : Nat) (h : l.length ≤ n) :
    l.drop n = [] := by
  induction l generalizing n with
  | nil => simp
  | cons x xs ih =>
    cases n with
    | zero => simp at h
    | succ m => simpa using ih m (by simpa using h)

theorem end_of_loop_submittedContent (buf_size : Nat) (buf0 : List Nat)
    (t : TermMode) (s : EditState) (h : CInv s) :
    submittedContent (end_of_loop buf_size buf0 t s) =
      cString (s.history.getD s.history_index []) := by
  obtain ⟨hIdx, hCur, hNum, hNT⟩ := h
  rw [end_of_loop_eq _ _ _ _ ⟨hIdx, hCur, hNum, hNT⟩]
  unfold submittedContent
  dsimp only
  by_cases hmir : s.history_index < s.history.length - 1
  · rw [if_pos hmir, getD_set_ne _ _ _ _ _ (by omega)]
  · rw [if_neg hmir]

theorem end_of_loop_buf (buf_size : Nat) (buf0 : List Nat) (t : TermMode)
    (s : EditState) (h : CInv s) :
    (end_of_loop buf_size buf0 t s).buf =
      memcpyOnto (buf0.take buf_size) (s.history.getD s.history_index [])
        (if s.num_chars < buf_size then s.num_chars + 1 else buf_size) := by
  rw [end_of_loop_eq _ _ _ _ h]

/-! ### Claims -/

/-- C3: in every edit-loop state, Ctrl+D on an empty line immediately
returns the end-of-input result without touching the state; Ctrl+D on a
non-empty line is dispatched exactly like Enter (both jump to
`end_of_loop` with the state unchanged).  A call whose first key is
Ctrl+D returns `RL_EOF` with the caller's buffer untouched, raw mode
restored, and the history holding exactly the entries it had plus the
empty entry added at the start of the call; that added entry's content is
the empty string. -/
theorem C3_ctrl_d :
    (∀ s : EditState, s.num_chars = 0 →
      stepKey s (CTRL_KEY 100) = .eofExit s) ∧
    (∀ s : EditState, s.num_chars ≠ 0 →
      stepKey s (CTRL_KEY 100) = .submit s ∧ stepKey s KEY_ENTER = .submit s) ∧
    (∀ (buf_size : Nat) (buf0 : List Nat) (history0 : List (List Nat))
        (keys : List Nat) (t0 : TermMode), 2 ≤ buf_size →
      rl_read_line buf_size buf0 history0 (CTRL_KEY 100 :: keys) t0 =
        some ⟨.RL_EOF, buf0.take buf_size,
          (initState buf_size buf0 history0).history,
          (initState buf_size buf0 history0).history_index, ⟨false, true⟩⟩) ∧
    (∀ (buf_size : Nat) (buf0 : List Nat) (history0 : List (List Nat)),
      (initState buf_size buf0 history0).history_index = history0.length ∧
      cString ((initState buf_size buf0 history0).history.getD
        history0.length []) = []) := by
  refine ⟨stepKey_ctrl_d_empty, fun s h => ⟨stepKey_ctrl_d_nonempty s h,
    stepKey_enter s⟩, ?_, ?_⟩
  · intro buf_size buf0 history0 keys t0 hbs
    have hnum : (initState buf_size buf0 history0).num_chars = 0 := by
      rw [initState_fields]
    have hguard : (initState buf_size buf0 history0).num_chars <
        buf_size - 1 := by
      rw [hnum]; omega
    have hloop : editLoop buf_size (initState buf_size buf0 history0)
        (CTRL_KEY 100 :: keys) =
        some (.endOfInput (initState buf_size buf0 history0)) := by
      simp only [editLoop]
      rw [if_pos hguard, stepKey_ctrl_d_empty _ hnum]
    unfold rl_read_line
    rw [hloop]
    rfl
  · intro buf_size buf0 history0
    constructor
    · rw [initState_fields]
    · rw [initState_fields]
      show cString (((history0 ++ [buf0.take buf_size]).set history0.length
        ((buf0.take buf_size).set 0 0)).getD history0.length []) = []
      rw [getD_set_self _ _ _ _ (by simp)]
      exact cString_set_zero_zero _

/-- Witness for C3 at concrete inputs. -/
theorem C3_witness :
    stepKey ⟨[[0]], 0, 0, 0⟩ (CTRL_KEY 100) = .eofExit ⟨[[0]], 0, 0, 0⟩ ∧
    rl_read_line 8 [65, 65, 65, 65, 65, 65, 65, 65] [] [CTRL_KEY 100]
        ⟨false, false⟩ =
      some ⟨.RL_EOF, ([65, 65, 65, 65, 65, 65, 65, 65] : List Nat).take 8,
        (initState 8 [65, 65, 65, 65, 65, 65, 65, 65] []).history,
        (initState 8 [65, 65, 65, 65, 65, 65, 65, 65] []).history_index,
        ⟨false, true⟩⟩ :=
  ⟨C3_ctrl_d.1 ⟨[[0]], 0, 0, 0⟩ rfl,
    C3_ctrl_d.2.2.1 8 [65, 65, 65, 65, 65, 65, 65, 65] [] [] ⟨false, false⟩
      (by decide)⟩

/-- C4: Arrow-Up at history index 0 and Arrow-Down at the tail index are
no-ops (buffer, cursor, length and index all unchanged); otherwise the
key moves `history_index` by exactly one, switches the live buffer to
that entry, and sets both the line length and the cursor offset to the
recalled entry's length. -/
theorem C4_history_navigation (s : EditState) :
    (s.history_index = 0 → stepKey s KEY_ARROW_UP = .next s) ∧
    (s.history_index = s.history.length - 1 →
      stepKey s KEY_ARROW_DOWN = .next s) ∧
    (s.history_index ≠ 0 →
      stepKey s KEY_ARROW_UP = .next
        { s with
          history_index := s.history_index - 1,
          cursor_pos := strlen (s.history.getD (s.history_index - 1) []),
          num_chars := strlen (s.history.getD (s.history_index - 1) []) }) ∧
    (s.history_index ≠ s.history.length - 1 →
      stepKey s KEY_ARROW_DOWN = .next
        { s with
          history_index := s.history_index + 1,
          cursor_pos := strlen (s.history.getD (s.history_index + 1) []),
          num_chars := strlen (s.history.getD (s.history_index + 1) []) }) := by
  have hup : stepKey s KEY_ARROW_UP = .next (arrowKey s KEY_ARROW_UP) := rfl
  have hdn : stepKey s KEY_ARROW_DOWN = .next (arrowKey s KEY_ARROW_DOWN) := rfl
  refine ⟨?_, ?_, ?_, ?_⟩
  · intro h
    rw [hup]
    unfold arrowKey
    rw [if_pos (Or.inl ⟨rfl, h⟩)]
  · intro h
    rw [hdn]
    unfold arrowKey
    rw [if_pos (Or.inr ⟨rfl, h⟩)]
  · intro h
    rw [hup]
    unfold arrowKey
    rw [if_neg ?_, if_pos (rfl : KEY_ARROW_UP = KEY_ARROW_UP)]
    rintro (⟨_, h0⟩ | ⟨habs, _⟩)
    · exact h h0
    · exact absurd habs (by decide)
  · intro h
    rw [hdn]
    unfold arrowKey
    rw [if_neg ?_, if_neg (show ¬ KEY_ARROW_DOWN = KEY_ARROW_UP by decide)]
    rintro (⟨habs, _⟩ | ⟨_, hc⟩)
    · exact absurd habs (by decide)
    · exact h hc

/-- Witness for C4 at concrete inputs. -/
theorem C4_witness :
    stepKey ⟨[[97, 0], [0]], 0, 0, 0⟩ KEY_ARROW_UP =
      .next ⟨[[97, 0], [0]], 0, 0, 0⟩ ∧
    stepKey ⟨[[97, 0], [0]], 1, 0, 0⟩ KEY_ARROW_UP =
      .next ⟨[[97, 0], [0]], 0, 1, 1⟩ :=
  ⟨(C4_history_navigation ⟨[[97, 0], [0]], 0, 0, 0⟩).1 rfl,
    (C4_history_navigation ⟨[[97, 0], [0]], 1, 0, 0⟩).2.2.1 (by decide)⟩

/-- C5: every completed `rl_read_line` call grows the history by exactly
one entry, whatever result it returns; Arrow Up / Down never modify any
history entry (only the index); and every loop step either leaves the
history untouched or rewrites the current entry in place — entries are
never removed or reordered. -/
theorem C5_history_growth :
    (∀ (buf_size : Nat) (buf0 : List Nat) (history0 : List (List Nat))
        (keys : List Nat) (t0 : TermMode) (out : Outcome),
      rl_read_line buf_size buf0 history0 keys t0 = some out →
      out.history.length = history0.length + 1) ∧
    (∀ (s : EditState) (k : Nat), k = KEY_ARROW_UP ∨ k = KEY_ARROW_DOWN →
      (stepKey s k).state.history = s.history) ∧
    (∀ (s : EditState) (k : Nat),
      (stepKey s k).state.history = s.history ∨
        ∃ e, (stepKey s k).state.history = s.history.set s.history_index e) := by
  refine ⟨?_, stepKey_arrow_history, stepKey_history⟩
  intro buf_size buf0 history0 keys t0 out hrun
  obtain ⟨ex, hex, hout⟩ := rl_read_line_some buf_size buf0 history0 keys t0
    out hrun
  rw [hout, loopOutcome_history_length,
    editLoop_length buf_size keys _ ex hex, initState_history_length]

/-- Witness for C5 at concrete inputs. -/
theorem C5_witness :
    (⟨.RL_SUCCESS, [0, 65, 65, 65, 65, 65, 65, 65],
      [[0, 65, 65, 65, 65, 65, 65, 65]], 0, ⟨false, true⟩⟩ :
        Outcome).history.length = ([] : List (List Nat)).length + 1 :=
  C5_history_growth.1 8 [65, 65, 65, 65, 65, 65, 65, 65] [] [KEY_ENTER]
    ⟨false, false⟩
    ⟨.RL_SUCCESS, [0, 65, 65, 65, 65, 65, 65, 65],
      [[0, 65, 65, 65, 65, 65, 65, 65]], 0, ⟨false, true⟩⟩ (by decide)

/-- C9: every completed `rl_read_line` call returns with the terminal out
of raw mode; `die` leaves the terminal out of raw mode whenever the flag
tracks the device state; and `disable_raw_mode` always leaves the device
out of raw mode. -/
theorem C9_raw_mode_restored :
    (∀ (buf_size : Nat) (buf0 : List Nat) (history0 : List (List Nat))
        (keys : List Nat) (t0 : TermMode) (out : Outcome),
      rl_read_line buf_size buf0 history0 keys t0 = some out →
      out.term.raw = false) ∧
    (∀ t : TermMode, (t.raw = true → t.raw_mode_enabled = true) →
      (die t).raw = false) ∧
    (∀ t : TermMode, (disable_raw_mode t).raw = false) := by
  refine ⟨?_, ?_, fun t => rfl⟩
  · intro buf_size buf0 history0 keys t0 out hrun
    obtain ⟨ex, hex, hout⟩ := rl_read_line_some buf_size buf0 history0 keys t0
      out hrun
    rw [hout]
    cases ex with
    | submitted v s => rfl
    | interrupted s => rfl
    | endOfInput s => rfl
  · intro t ht
    unfold die
    split_ifs with hf
    · rfl
    · cases hraw : t.raw
      · rfl
      · exact absurd (ht hraw) hf

/-- Witness for C9 at concrete inputs. -/
theorem C9_witness :
    (die ⟨true, true⟩).raw = false ∧
    (⟨.RL_SUCCESS, [0, 65, 65, 65, 65, 65, 65, 65],
      [[0, 65, 65, 65, 65, 65, 65, 65]], 0, ⟨false, true⟩⟩ :
        Outcome).term.raw = false :=
  ⟨C9_raw_mode_restored.2.1 ⟨true, true⟩ (fun _ => rfl),
    C9_raw_mode_restored.1 8 [65, 65, 65, 65, 65, 65, 65, 65] [] [KEY_ENTER]
      ⟨false, false⟩
      ⟨.RL_SUCCESS, [0, 65, 65, 65, 65, 65, 65, 65],
        [[0, 65, 65, 65, 65, 65, 65, 65]], 0, ⟨false, true⟩⟩ (by decide)⟩

/-- C10: once the line length has reached `buf_size - 1`, the edit loop
terminates at once without consuming any further key, the exit is
processed exactly like an Enter submission (the `via_key` flag is
ignored by the return path), and the call reports `RL_SUCCESS`. -/
theorem C10_full_buffer_submit (buf_size : Nat) (buf0 : List Nat)
    (t : TermMode) (s : EditState) (keys : List Nat)
    (hfull : buf_size - 1 ≤ s.num_chars) :
    editLoop buf_size s keys = some (.submitted false s) ∧
    loopOutcome buf_size buf0 t (.submitted false s) =
      loopOutcome buf_size buf0 t (.submitted true s) ∧
    (loopOutcome buf_size buf0 t (.submitted false s)).result =
      .RL_SUCCESS := by
  refine ⟨?_, rfl, rfl⟩
  cases keys with
  | nil =>
    simp only [editLoop,
      if_neg (show ¬ s.num_chars < buf_size - 1 by omega)]
  | cons k ks =>
    simp only [editLoop,
      if_neg (show ¬ s.num_chars < buf_size - 1 by omega)]

/-- Witness for C10 at concrete inputs. -/
theorem C10_witness :
    editLoop 4 ⟨[[97, 98, 99, 0]], 0, 3, 3⟩ [50, 51] =
      some (.submitted false ⟨[[97, 98, 99, 0]], 0, 3, 3⟩) ∧
    (loopOutcome 4 [65, 65, 65, 65] ⟨true, true⟩
      (.submitted false ⟨[[97, 98, 99, 0]], 0, 3, 3⟩)).result = .RL_SUCCESS := by
  have h := C10_full_buffer_submit 4 [65, 65, 65, 65] ⟨true, true⟩
    ⟨[[97, 98, 99, 0]], 0, 3, 3⟩ [50, 51] (by decide)
  exact ⟨h.1, h.2.2⟩

/-- C2: when the edit loop exits through Enter or Ctrl+D (a `via_key`
submit, so the loop guard held and no truncation is possible), the
`end_of_loop` block behaves as the specification states: if the history
cursor is not at the tail, the final edited content is copied onto the
tail entry while every other entry — including the recalled entry that
was edited in place — is left exactly as it was; if the cursor is at the
tail, the history is not modified at all. -/
theorem C2_submit_mirrors_tail (buf_size : Nat) (buf0 : List Nat)
    (t : TermMode) (s0 s : EditState) (keys : List Nat) (hC0 : CInv s0)
    (hrun : editLoop buf_size s0 keys = some (.submitted true s)) :
    (s.history_index < s.history.length - 1 →
      cString ((end_of_loop buf_size buf0 t s).history.getD
          (s.history.length - 1) []) =
        cString (s.history.getD s.history_index []) ∧
      ∀ j, j ≠ s.history.length - 1 →
        (end_of_loop buf_size buf0 t s).history.getD j [] =
          s.history.getD j []) ∧
    (s.history_index = s.history.length - 1 →
      (end_of_loop buf_size buf0 t s).history = s.history) := by
  have hC : CInv s :=
    editLoop_CInv buf_size keys s0 (.submitted true s) hC0 hrun
  have hguard := editLoop_submit_guard buf_size keys s0 s hrun
  obtain ⟨hIdx, hCur, hNum, hNT⟩ := hC
  have hlt : s.num_chars < buf_size := by omega
  rw [end_of_loop_eq buf_size buf0 t s ⟨hIdx, hCur, hNum, hNT⟩]
  constructor
  · intro hmir
    dsimp only
    rw [if_pos hmir, if_pos hlt]
    constructor
    · rw [getD_set_self _ _ _ _ (by omega), hNum]
      exact cString_copy_full _ _ (hNT s.history_index hIdx)
    · intro j hj
      rw [getD_set_ne _ _ _ _ _ (fun hcontra => hj hcontra.symm)]
  · intro heq
    dsimp only
    rw [if_neg (by omega)]

/-- Witness for C2 at concrete inputs: recall the entry `"a"`, type `b`,
press Enter; the tail entry afterwards holds the edited content. -/
theorem C2_witness :
    cString ((end_of_loop 8 [65, 65, 65, 65, 65, 65, 65, 65] ⟨true, true⟩
        ⟨[[97, 98, 0], [0, 65, 65, 65, 65, 65, 65, 65]], 0, 2, 2⟩).history.getD
        1 []) =
      cString (([[97, 98, 0], [0, 65, 65, 65, 65, 65, 65, 65]] :
        List (List Nat)).getD 0 []) := by
  have h := (C2_submit_mirrors_tail 8 [65, 65, 65, 65, 65, 65, 65, 65]
    ⟨true, true⟩ (initState 8 [65, 65, 65, 65, 65, 65, 65, 65] [[97, 0]])
    ⟨[[97, 98, 0], [0, 65, 65, 65, 65, 65, 65, 65]], 0, 2, 2⟩
    [KEY_ARROW_UP, 98, KEY_ENTER]
    ⟨by decide, by decide, by decide, by decide⟩ (by decide)).1 (by decide)
  exact h.1

/-- C6: from any editor state whose cursor is within the line, inserting
a printable byte and then pressing Backspace restores the original line
content, cursor offset, length and history index, and leaves every other
history entry untouched. -/
theorem C6_insert_backspace_inverse (s : EditState) (c : Nat)
    (hc : isprint c = true)
    (hidx : s.history_index < s.history.length)
    (hp : s.cursor_pos ≤ (cString (s.history.getD s.history_index [])).length) :
    stepKey s c = .next (insertKey s c) ∧
    stepKey (insertKey s c) KEY_BACKSPACE =
      .next (backspaceKey (insertKey s c)) ∧
    cString ((backspaceKey (insertKey s c)).history.getD
        (backspaceKey (insertKey s c)).history_index []) =
      cString (s.history.getD s.history_index []) ∧
    (backspaceKey (insertKey s c)).cursor_pos = s.cursor_pos ∧
    (backspaceKey (insertKey s c)).num_chars = s.num_chars ∧
    (backspaceKey (insertKey s c)).history_index = s.history_index ∧
    ∀ j, j ≠ s.history_index →
      (backspaceKey (insertKey s c)).history.getD j [] =
        s.history.getD j [] := by
  have hc0 : c ≠ 0 := by
    simp only [isprint, Bool.and_eq_true, decide_eq_true_eq] at hc
    omega
  have hb := backspace_insertKey s c hc0 hidx hp
  have hfree := cString_ne_zero (s.history.getD s.history_index [])
  refine ⟨?_, rfl, ?_, ?_, ?_, ?_, ?_⟩
  · unfold stepKey
    rw [if_pos hc]
  · rw [hb]
    dsimp only
    rw [getD_set_self _ _ _ _ hidx]
    exact cString_append_zero _ hfree
  · rw [hb]
  · rw [hb]
  · rw [hb]
  · intro j hj
    rw [hb]
    dsimp only
    rw [getD_set_ne _ _ _ _ _ (fun hcontra => hj hcontra.symm)]

/-- Witness for C6 at concrete inputs: line `"hi"`, cursor 1, insert
`'X'`, Backspace. -/
theorem C6_witness :
    cString ((backspaceKey (insertKey ⟨[[104, 105, 0]], 0, 1, 2⟩ 88)).history.getD
        (backspaceKey (insertKey ⟨[[104, 105, 0]], 0, 1, 2⟩ 88)).history_index []) =
      cString (([[104, 105, 0]] : List (List Nat)).getD 0 []) ∧
    (backspaceKey (insertKey ⟨[[104, 105, 0]], 0, 1, 2⟩ 88)).cursor_pos = 1 ∧
    (backspaceKey (insertKey ⟨[[104, 105, 0]], 0, 1, 2⟩ 88)).num_chars = 2 := by
  have h := C6_insert_backspace_inverse ⟨[[104, 105, 0]], 0, 1, 2⟩ 88
    (by decide) (by decide) (by decide)
  exact ⟨h.2.2.1, h.2.2.2.1, h.2.2.2.2.1⟩

/-- C7: every key-dispatch step of the edit loop, taken under the loop
guard, preserves the line-buffer invariant: the length stays strictly
below the buffer capacity (and so does every entry's content length),
the cursor offset stays within the line, and the live entry stays
null-terminated at its length. -/
theorem C7_line_buffer_invariant (buf_size : Nat) (s : EditState) (k : Nat)
    (h : lineBufferInv buf_size s) (hguard : s.num_chars < buf_size - 1) :
    lineBufferInv buf_size (stepKey s k).state := by
  obtain ⟨hC, hNumB, hEnt⟩ := h
  have hbounds := stepKey_bounds buf_size s k hC hEnt hNumB hguard
  exact ⟨stepKey_CInv s k hC, hbounds.1, hbounds.2⟩

/-- Witness for C7 at concrete inputs. -/
theorem C7_witness :
    lineBufferInv 8 (stepKey ⟨[[104, 105, 0]], 0, 1, 2⟩ 97).state :=
  C7_line_buffer_invariant 8 ⟨[[104, 105, 0]], 0, 1, 2⟩ 97
    ⟨⟨by decide, by decide, by decide, by decide⟩, by decide, by decide⟩
    (by decide)

/-- C1 counterexample: with `buf_size = 2` and a history entry `"abc"`
left by an earlier call with a larger buffer, a single Arrow-Up recalls
the entry, the loop exits at the size bound, and the call returns
`RL_SUCCESS` — but the caller's 2-byte buffer receives `"ab"` with NO
null terminator (the truncating `memcpy` copies `buf_size` content bytes
and nothing else), refuting the claim that truncation keeps the buffer
null-terminated. -/
theorem C1_counterexample :
    rl_read_line 2 [65, 66] [[97, 98, 99, 0]] [KEY_ARROW_UP] ⟨false, false⟩ =
      some ⟨.RL_SUCCESS, [97, 98], [[97, 98, 99, 0], [97, 98]], 0,
        ⟨false, true⟩⟩ ∧
    submittedContent ⟨.RL_SUCCESS, [97, 98], [[97, 98, 99, 0], [97, 98]], 0,
      ⟨false, true⟩⟩ = [97, 98, 99] ∧
    2 ≤ ([97, 98, 99] : List Nat).length ∧
    (0 : Nat) ∉ ([97, 98] : List Nat) := by decide

/-- C1 (amended): on `RL_SUCCESS` the caller's buffer holds the submitted
line as a null-terminated string whenever the line fits
(`length < buf_size`); when the submitted content is `buf_size` bytes or
longer (possible only through recall of an entry made by an earlier call
with a larger buffer), exactly `buf_size` content bytes are copied,
silently and with NO null terminator appended. -/
theorem C1_amended (buf_size : Nat) (buf0 : List Nat)
    (history0 : List (List Nat)) (keys : List Nat) (t0 : TermMode)
    (out : Outcome) (hbs : 1 ≤ buf_size) (hbuf : buf0.length = buf_size)
    (hh0 : ∀ e ∈ history0, nullTerminated e)
    (hrun : rl_read_line buf_size buf0 history0 keys t0 = some out)
    (hres : out.result = .RL_SUCCESS) :
    ((submittedContent out).length < buf_size →
      cString out.buf = submittedContent out ∧
      out.buf[(submittedContent out).length]? = some 0) ∧
    (buf_size ≤ (submittedContent out).length →
      out.buf = (submittedContent out).take buf_size ∧ 0 ∉ out.buf) := by
  obtain ⟨ex, hex, hout⟩ :=
    rl_read_line_some buf_size buf0 history0 keys t0 out hrun
  have hC0 : CInv (initState buf_size buf0 history0) :=
    initState_CInv buf_size buf0 history0 hbs (by omega) hh0
  cases ex with
  | interrupted s =>
    rw [hout] at hres
    simp [loopOutcome] at hres
  | endOfInput s =>
    rw [hout] at hres
    simp [loopOutcome] at hres
  | submitted v s =>
    have hC : CInv s := editLoop_CInv buf_size keys _ _ hC0 hex
    have hnt := hC.nt s.history_index hC.idx_lt
    have hNum' : s.num_chars =
        (cString (s.history.getD s.history_index [])).length := hC.num_eq
    have hsc : submittedContent out =
        cString (s.history.getD s.history_index []) := by
      rw [hout]
      exact end_of_loop_submittedContent _ _ _ _ hC
    have hbuf' : out.buf = memcpyOnto (buf0.take buf_size)
        (s.history.getD s.history_index [])
        (if s.num_chars < buf_size then s.num_chars + 1 else buf_size) := by
      rw [hout]
      exact end_of_loop_buf _ _ _ _ hC
    rw [hsc, hbuf']
    constructor
    · intro hlen
      rw [if_pos (by omega), hC.num_eq]
      exact ⟨cString_copy_full _ _ hnt, getElem?_copy_full _ _ hnt⟩
    · intro hge
      rw [if_neg (by omega)]
      have hdrop : (buf0.take buf_size).drop buf_size = [] := by
        apply drop_all
        rw [List.length_take]
        exact Nat.min_le_left _ _
      rw [memcpy_trunc _ _ _ hnt (by rw [strlen]; omega), hdrop,
        List.append_nil]
      refine ⟨rfl, ?_⟩
      intro hmem
      exact cString_ne_zero _ 0 (List.take_subset _ _ hmem) rfl

/-- Witness for the amended C1 at concrete inputs: type `a`, press
Enter, with `buf_size = 8`. -/
theorem C1_amended_witness :
    rl_read_line 8 [65, 65, 65, 65, 65, 65, 65, 65] [] [97, KEY_ENTER]
        ⟨false, false⟩ =
      some ⟨.RL_SUCCESS, [97, 0, 65, 65, 65, 65, 65, 65], [[97, 0]], 0,
        ⟨false, true⟩⟩ ∧
    (cString (⟨.RL_SUCCESS, [97, 0, 65, 65, 65, 65, 65, 65], [[97, 0]], 0,
        ⟨false, true⟩⟩ : Outcome).buf =
      submittedContent ⟨.RL_SUCCESS, [97, 0, 65, 65, 65, 65, 65, 65],
        [[97, 0]], 0, ⟨false, true⟩⟩ ∧
    (⟨.RL_SUCCESS, [97, 0, 65, 65, 65, 65, 65, 65], [[97, 0]], 0,
        ⟨false, true⟩⟩ : Outcome).buf[(submittedContent ⟨.RL_SUCCESS,
        [97, 0, 65, 65, 65, 65, 65, 65], [[97, 0]], 0,
        ⟨false, true⟩⟩).length]? = some 0) :=
  ⟨by decide,
    (C1_amended 8 [65, 65, 65, 65, 65, 65, 65, 65] [] [97, KEY_ENTER]
      ⟨false, false⟩
      ⟨.RL_SUCCESS, [97, 0, 65, 65, 65, 65, 65, 65], [[97, 0]], 0,
        ⟨false, true⟩⟩
      (by decide) (by decide) (fun e he => nomatch he) (by decide)
      (by decide)).1 (by decide)⟩

/-- C8: after an initial ESC byte, `read_key` degrades to the plain ESC
key whenever a lookahead byte times out or the consumed bytes match no
recognized pattern — the consumed bytes are discarded, not re-queued,
and a key is always produced (the session is never aborted) — while the
recognized `ESC [` and `ESC O` sequences decode to the corresponding
arrow / Home / End / Delete / Page keys. -/
theorem C8_escape_decoding :
    -- lookahead timeout at each position degrades to plain ESC
    (∀ r, read_key (.byte KEY_ESC :: .timeout :: r) = some (KEY_ESC, r)) ∧
    (read_key [.byte KEY_ESC] = some (KEY_ESC, [])) ∧
    (∀ r, read_key (.byte KEY_ESC :: .byte 91 :: .timeout :: r) =
      some (KEY_ESC, r)) ∧
    (∀ r, read_key (.byte KEY_ESC :: .byte 79 :: .timeout :: r) =
      some (KEY_ESC, r)) ∧
    (∀ r, read_key (.byte KEY_ESC :: .byte 91 :: .byte 53 :: .timeout :: r) =
      some (KEY_ESC, r)) ∧
    -- unrecognized shapes degrade to plain ESC, consumed bytes dropped
    (∀ b r, b ≠ KEY_ESC → b ≠ 91 → b ≠ 79 →
      read_key (.byte KEY_ESC :: .byte b :: r) = some (KEY_ESC, r)) ∧
    (∀ r, read_key (.byte KEY_ESC :: .byte 91 :: .byte 120 :: r) =
      some (KEY_ESC, r)) ∧
    (∀ x y z r, x ≠ 126 →
      read_key (.byte KEY_ESC :: .byte 91 :: .byte 50 :: .byte x ::
        .byte y :: .byte z :: r) = some (KEY_ESC, r)) ∧
    (∀ r, read_key (.byte KEY_ESC :: .byte 91 :: .byte 50 :: .byte 126 :: r) =
      some (KEY_ESC, r)) ∧
    -- an ESC byte always decodes to some key: no abort
    (∀ r, (read_key (.byte KEY_ESC :: r)).isSome = true) ∧
    -- ESC [ letter family
    (∀ r, read_key (.byte KEY_ESC :: .byte 91 :: .byte 65 :: r) =
      some (KEY_ARROW_UP, r)) ∧
    (∀ r, read_key (.byte KEY_ESC :: .byte 91 :: .byte 66 :: r) =
      some (KEY_ARROW_DOWN, r)) ∧
    (∀ r, read_key (.byte KEY_ESC :: .byte 91 :: .byte 67 :: r) =
      some (KEY_ARROW_RIGHT, r)) ∧
    (∀ r, read_key (.byte KEY_ESC :: .byte 91 :: .byte 68 :: r) =
      some (KEY_ARROW_LEFT, r)) ∧
    (∀ r, read_key (.byte KEY_ESC :: .byte 91 :: .byte 70 :: r) =
      some (KEY_END, r)) ∧
    (∀ r, read_key (.byte KEY_ESC :: .byte 91 :: .byte 72 :: r) =
      some (KEY_HOME, r)) ∧
    -- ESC O letter family
    (∀ r, read_key (.byte KEY_ESC :: .byte 79 :: .byte 65 :: r) =
      some (KEY_ARROW_UP, r)) ∧
    (∀ r, read_key (.byte KEY_ESC :: .byte 79 :: .byte 66 :: r) =
      some (KEY_ARROW_DOWN, r)) ∧
    (∀ r, read_key (.byte KEY_ESC :: .byte 79 :: .byte 67 :: r) =
      some (KEY_ARROW_RIGHT, r)) ∧
    (∀ r, read_key (.byte KEY_ESC :: .byte 79 :: .byte 68 :: r) =
      some (KEY_ARROW_LEFT, r)) ∧
    (∀ r, read_key (.byte KEY_ESC :: .byte 79 :: .byte 70 :: r) =
      some (KEY_END, r)) ∧
    (∀ r, read_key (.byte KEY_ESC :: .byte 79 :: .byte 72 :: r) =
      some (KEY_HOME, r)) ∧
    -- ESC [ digit ~ family
    (∀ r, read_key (.byte KEY_ESC :: .byte 91 :: .byte 49 :: .byte 126 :: r) =
      some (KEY_HOME, r)) ∧
    (∀ r, read_key (.byte KEY_ESC :: .byte 91 :: .byte 51 :: .byte 126 :: r) =
      some (KEY_DELETE, r)) ∧
    (∀ r, read_key (.byte KEY_ESC :: .byte 91 :: .byte 52 :: .byte 126 :: r) =
      some (KEY_END, r)) ∧
    (∀ r, read_key (.byte KEY_ESC :: .byte 91 :: .byte 53 :: .byte 126 :: r) =
      some (KEY_PAGE_UP, r)) ∧
    (∀ r, read_key (.byte KEY_ESC :: .byte 91 :: .byte 54 :: .byte 126 :: r) =
      some (KEY_PAGE_DOWN, r)) ∧
    (∀ r, read_key (.byte KEY_ESC :: .byte 91 :: .byte 55 :: .byte 126 :: r) =
      some (KEY_HOME, r)) ∧
    (∀ r, read_key (.byte KEY_ESC :: .byte 91 :: .byte 56 :: .byte 126 :: r) =
      some (KEY_END, r)) := by
  refine ⟨fun r => rfl, rfl, fun r => rfl, fun r => rfl, fun r => rfl,
    ?_, fun r => rfl, ?_, fun r => rfl, fun r => rfl,
    fun r => rfl, fun r => rfl, fun r => rfl, fun r => rfl, fun r => rfl,
    fun r => rfl,
    fun r => rfl, fun r => rfl, fun r => rfl, fun r => rfl, fun r => rfl,
    fun r => rfl,
    fun r => rfl, fun r => rfl, fun r => rfl, fun r => rfl, fun r => rfl,
    fun r => rfl, fun r => rfl⟩
  · intro b r h1 h2 h3
    have h1' : b ≠ 27 := h1
    simp [read_key, read_esc_seq, KEY_ESC, h1', h2, h3]
  · intro x y z r hx
    simp [read_key, read_esc_seq, KEY_ESC, hx]

/-- Witness for C8 at concrete inputs: `ESC c` (unrecognized second
byte) and `ESC [ 2 A` (digit sequence without the `~` terminator) both
degrade to the plain ESC key, discarding the consumed lookahead. -/
theorem C8_witness :
    read_key [.byte KEY_ESC, .byte 99] = some (KEY_ESC, []) ∧
    read_key [.byte KEY_ESC, .byte 91, .byte 50, .byte 65, .byte 1, .byte 2,
      .byte 3] = some (KEY_ESC, [.byte 3]) := by
  constructor
  · exact C8_escape_decoding.2.2.2.2.2.1 99 [] (by decide) (by decide)
      (by decide)
  · exact C8_escape_decoding.2.2.2.2.2.2.2.1 65 1 2 [.byte 3] (by decide)

end EchoRepl
